import Mathlib

/-!
A shallow embedding of the rpclib client connection engine
(lib/callme/client.cc) and proofs about its response-correlation,
connection-state and call-id machinery.

Modelling conventions:
* msgpack payloads (result values, error payloads, outbound buffers) are
  opaque and represented by natural numbers.
* The table `ongoing_calls_` maps a call id to a `std::promise`; we separate
  the promise object (keyed by a promise identifier) from its shared state
  (the completion slot), because erasing the map entry destroys the promise
  object while the shared state survives with the caller-held future.
  A completion slot follows the semantics of `std::promise`: it is written
  when empty; writing an already-satisfied promise raises
  `std::future_error` instead of overwriting.  Destroying an unsatisfied
  promise stores a broken-promise error in its shared state.
* The io thread is single-threaded: the read handler and all tasks posted
  through the strand execute one at a time.  Erase tasks posted from the
  read handler run after the handler returns and before the next completed
  event is processed, matching the FIFO order of the io queue.
* A field `writeLog` records, as ghost state, every write ever made to a
  completion slot, so that at-most-once fulfillment is expressible.
-/

namespace Callme

/-- `client::connection_state` from client.h, as used in client.cc. -/
inductive ConnectionState
  | initial
  | connected
  | disconnected
  | reset
deriving DecidableEq, Repr

/-- What can be stored in the shared state of a `std::promise`:
a decoded result value (`set_value`), an exception carrying the
server-supplied error payload (`set_exception` in the catch block of
`do_read`), or the broken-promise error stored when an unsatisfied promise
is destroyed. -/
inductive Outcome
  | value (v : Nat)
  | error (e : Nat)
  | broken
deriving DecidableEq, Repr

/-- A decoded response frame, as read off `callme::detail::response` in
`do_read`: `get_id()`, `get_error()` (a server error is flagged by
`get_error() > 0`, its payload by `get_error()->get()`), `get_result()`. -/
structure Response where
  id : Nat
  err : Nat
  result : Nat
deriving DecidableEq, Repr

/-- Key lookup in an association list (the model of `std::unordered_map`
access by key). -/
def alookup {α : Type} : List (Nat × α) → Nat → Option α
  | [], _ => none
  | p :: t, k => if p.1 = k then some p.2 else alookup t k

/-- Key removal from an association list (the model of
`std::unordered_map::erase` by key). -/
def aerase {α : Type} : List (Nat × α) → Nat → List (Nat × α)
  | [], _ => []
  | p :: t, k => if p.1 = k then aerase t k else p :: aerase t k

/-- The state of `client::impl` that the response path touches:
`ongoing_calls_` (call id to promise object), the shared states of all
promises ever created (promise id to completion slot, absent while
unfulfilled), a fresh-promise-id allocator, the erase tasks posted to the
strand but not yet executed, `state_`, a flag recording that an exception
escaped the read handler (which kills the io thread), and the ghost log of
completion-slot writes. -/
structure ImplState where
  ongoingCalls : List (Nat × Nat)
  slots : List (Nat × Outcome)
  nextPromiseId : Nat
  eraseQueue : List Nat
  connState : ConnectionState
  crashed : Bool
  writeLog : List (Nat × Outcome)
deriving DecidableEq, Repr

/-- Write a completion slot that is currently empty, and record the write
in the ghost log. Callers guard on the slot being empty, matching
`std::promise`, which refuses to overwrite a satisfied shared state. -/
def fulfill (s : ImplState) (pid : Nat) (o : Outcome) : ImplState :=
  { s with
      slots := s.slots ++ [(pid, o)]
      writeLog := s.writeLog ++ [(pid, o)] }

/-- The try/catch block of `do_read` lines 69-78, acting on the promise
object `pid` that `ongoing_calls_[id]` returned: if the frame flags a
server error, a `runtime_error` carrying the error payload is thrown and
caught, and `set_exception` stores it; otherwise `set_value` stores the
decoded result.  If the promise is already satisfied, `set_value` throws
`std::future_error`; the catch block then calls `set_exception` on the
same satisfied promise, which throws `std::future_error` out of the
handler and kills the io thread (`crashed`). -/
def deliver (s : ImplState) (pid : Nat) (r : Response) : ImplState :=
  match alookup s.slots pid with
  | some _ => { s with crashed := true }
  | none =>
      fulfill s pid (if r.err > 0 then Outcome.error r.err else Outcome.value r.result)

/-- One iteration of the frame loop in `do_read` (lines 63-79):
`ongoing_calls_[id]` returns the registered promise, or default-constructs
a fresh one under that id when the id is unknown (`operator` bracket
semantics of `std::unordered_map`); an erase task for the id is posted to
the strand; then the outcome is delivered to the promise. -/
def processResponse (s : ImplState) (r : Response) : ImplState :=
  match alookup s.ongoingCalls r.id with
  | some pid =>
      deliver { s with eraseQueue := s.eraseQueue ++ [r.id] } pid r
  | none =>
      deliver
        { s with
            ongoingCalls := s.ongoingCalls ++ [(r.id, s.nextPromiseId)]
            nextPromiseId := s.nextPromiseId + 1
            eraseQueue := s.eraseQueue ++ [r.id] }
        s.nextPromiseId r

/-- The whole frame loop: process decoded frames in order; an exception
escaping the handler aborts the loop (no later frame is processed). -/
def processBatch (s : ImplState) : List Response → ImplState
  | [] => s
  | r :: rs =>
      let s' := processResponse s r
      if s'.crashed then s' else processBatch s' rs

/-- One erase task posted from the read handler:
`ongoing_calls_.erase(id)` removes the entry and destroys the promise
object; destroying an unsatisfied promise stores a broken-promise error in
its shared state. -/
def runEraseTask (s : ImplState) (id : Nat) : ImplState :=
  match alookup s.ongoingCalls id with
  | none => s
  | some pid =>
      let s1 := { s with ongoingCalls := aerase s.ongoingCalls id }
      match alookup s1.slots pid with
      | some _ => s1
      | none => fulfill s1 pid Outcome.broken

/-- Run the erase tasks queued during a read handler, in posting order. -/
def drainEraseQueue (s : ImplState) : ImplState :=
  s.eraseQueue.foldl runEraseTask { s with eraseQueue := [] }

/-- The completion of one `async_read_some`: either bytes arrived and were
decoded into frames (`ok`), or the read failed with eof, connection reset,
or some other transport error. -/
inductive ReadResult
  | ok (frames : List Response)
  | eof
  | connectionReset
  | otherError
deriving DecidableEq, Repr

/-- Result of the read handler in `do_read` (lines 58-88): the state it
leaves behind and whether it issued another `do_read()`. -/
structure ReadStep where
  state : ImplState
  rearm : Bool
deriving DecidableEq, Repr

/-- The read handler of `do_read`: on success it runs the frame loop and
then calls `do_read()` again (unless an exception escaped the loop first);
on eof it moves `state_` to disconnected; on connection reset it moves
`state_` to reset; on any other error it does nothing.  Only the success
branch re-arms the read. -/
def readHandler (s : ImplState) : ReadResult → ReadStep
  | ReadResult.ok frames =>
      let s' := processBatch s frames
      ⟨s', !s'.crashed⟩
  | ReadResult.eof => ⟨{ s with connState := ConnectionState.disconnected }, false⟩
  | ReadResult.connectionReset => ⟨{ s with connState := ConnectionState.reset }, false⟩
  | ReadResult.otherError => ⟨s, false⟩

/-! ## The io thread as a serialized event loop

`client::client` spawns one io thread running `io_.run()`; the read handler
and every task posted through `strand_` execute on it one at a time.
`client::~client` calls `io_.stop()` and joins the thread: once the loop is
stopped, no queued handler or task ever executes. -/

/-- State visible to the io thread: the impl state, whether `io_.run()` is
still running (false once `io_.stop()` was called), and the buffers handed
to the async writer, in order. -/
structure LoopState where
  impl : ImplState
  running : Bool
  writes : List Nat
deriving DecidableEq, Repr

/-- The two statements of the task body posted by
`client::post(buffer, idx, p)` (lines 145-150): insert the pair
(idx, moved promise) into `ongoing_calls_`, then hand the buffer to the
async writer.  The promise object the caller allocated arrives with the
insert. -/
inductive PostAction
  | insertCall (id : Nat)
  | writeBuf (buf : Nat)
deriving DecidableEq, Repr

/-- The body of the `client::post` task, in statement order:
registration first, then the write. -/
def postTaskActions (id buf : Nat) : List PostAction :=
  [PostAction.insertCall id, PostAction.writeBuf buf]

/-- Execute one statement of a post task.  The insert models
`std::unordered_map::insert`: the freshly constructed promise the caller
moved in is bound to a fresh promise id; if the key already exists the
entry is kept and the moved-from pair is destroyed, breaking the new
promise. -/
def runPostAction (s : LoopState) : PostAction → LoopState
  | PostAction.insertCall id =>
      let pid := s.impl.nextPromiseId
      let impl1 := { s.impl with nextPromiseId := pid + 1 }
      let impl2 :=
        match alookup impl1.ongoingCalls id with
        | some _ =>
            match alookup impl1.slots pid with
            | some _ => impl1
            | none => fulfill impl1 pid Outcome.broken
        | none => { impl1 with ongoingCalls := impl1.ongoingCalls ++ [(id, pid)] }
      { s with impl := impl2 }
  | PostAction.writeBuf buf => { s with writes := s.writes ++ [buf] }

/-- Execute the statements of a task in order, without interruption: the
strand runs a posted task as a whole. -/
def runPostActions (s : LoopState) (acts : List PostAction) : LoopState :=
  acts.foldl runPostAction s

/-- The complete `client::post(buffer, idx, p)` task. -/
def runPostCallTask (s : LoopState) (id buf : Nat) : LoopState :=
  runPostActions s (postTaskActions id buf)

/-- The events the io thread serializes: a completed read, a call
submission task (`client::post` with a promise), a notification task
(`client::post` without one), and `io_.stop()` from the destructor. -/
inductive LoopEvent
  | read (c : ReadResult)
  | postCall (id : Nat) (buf : Nat)
  | postNotify (buf : Nat)
  | stop
deriving DecidableEq, Repr

/-- Dispatch one event.  Nothing runs once the loop was stopped, and
nothing runs after an exception escaped a handler (the io thread is gone).
A completed read runs the read handler and then the erase tasks it posted,
unless the handler died first, in which case its posted tasks never
execute either. -/
def loopStep (s : LoopState) (e : LoopEvent) : LoopState :=
  if !s.running || s.impl.crashed then s
  else
    match e with
    | LoopEvent.stop => { s with running := false }
    | LoopEvent.read c =>
        let st := (readHandler s.impl c).state
        { s with impl := if st.crashed then st else drainEraseQueue st }
    | LoopEvent.postCall id buf => runPostCallTask s id buf
    | LoopEvent.postNotify buf => { s with writes := s.writes ++ [buf] }

/-- Run the io thread over a sequence of completed events. -/
def runLoop (s : LoopState) (es : List LoopEvent) : LoopState :=
  es.foldl loopStep s

/-! ## The call-id counter

`client::impl::impl` starts `call_idx_` at 0.  `client::get_next_call_idx`
(lines 138-141) performs two separate atomic operations on it: the
increment (whose returned value is discarded) and then an independent load
in the return statement. -/

/-- Starting value of `call_idx_`, from the impl member initializer. -/
def initialCallIdx : Int := 0

/-- `get_next_call_idx` as observed by a single thread with no
interference: the increment followed by the load of the incremented
counter.  Returns (returned value, new counter). -/
def get_next_call_idx (c : Int) : Int × Int :=
  let c1 := c + 1
  (c1, c1)

/-- The returned values of a run of sequential, non-overlapping
invocations of `get_next_call_idx` starting from counter value `c`. -/
def seqCallIdxs : Nat → Int → List Int
  | 0, _ => []
  | n + 1, c =>
      let r := get_next_call_idx c
      r.1 :: seqCallIdxs n r.2

/-- The individual atomic accesses `get_next_call_idx` makes to
`call_idx_`, tagged with the calling thread: the increment
(`++(pimpl->call_idx_)`, value discarded) and the separate load of the
return statement. -/
inductive IdxAccess
  | inc (thread : Nat)
  | load (thread : Nat)
deriving DecidableEq, BEq, Repr

/-- Shared counter plus the value each thread returned from its
invocation (recorded when its load executes). -/
structure RaceState where
  counter : Int
  returned : List (Nat × Int)
deriving DecidableEq, Repr

/-- Execute one atomic access to the counter. -/
def idxStep (s : RaceState) : IdxAccess → RaceState
  | IdxAccess.inc _ => { s with counter := s.counter + 1 }
  | IdxAccess.load t => { s with returned := s.returned ++ [(t, s.counter)] }

/-- Execute an interleaving of atomic counter accesses. -/
def runIdxSchedule (s : RaceState) (l : List IdxAccess) : RaceState :=
  l.foldl idxStep s

/-- The thread an access belongs to. -/
def accessThread : IdxAccess → Nat
  | IdxAccess.inc t => t
  | IdxAccess.load t => t

/-- A schedule is a legal concurrent execution of exactly one
`get_next_call_idx` invocation per listed thread when, restricted to each
thread, it is exactly that thread's increment followed by that thread's
load, and no other thread appears. -/
def isInterleavingOfCalls (l : List IdxAccess) (threads : List Nat) : Bool :=
  threads.all (fun t =>
    l.filter (fun a => accessThread a == t) == [IdxAccess.inc t, IdxAccess.load t]) &&
  l.all (fun a => threads.contains (accessThread a))

/-- A schedule in which two threads both run `get_next_call_idx` and their
increments both precede both loads. -/
def raceSchedule : List IdxAccess :=
  [IdxAccess.inc 0, IdxAccess.inc 1, IdxAccess.load 0, IdxAccess.load 1]

/-! ## Invariants and concrete states -/

/-- Well-formedness of an impl state: every promise id bound in the table
or carrying a shared state was allocated below the fresh-id bound; the
ghost log of completion-slot writes has pairwise-distinct promise ids; and
every logged promise id has a satisfied shared state. -/
abbrev WF (s : ImplState) : Prop :=
  (∀ p ∈ s.ongoingCalls, p.2 < s.nextPromiseId) ∧
  (∀ p ∈ s.slots, p.1 < s.nextPromiseId) ∧
  (s.writeLog.map Prod.fst).Nodup ∧
  (∀ k ∈ s.writeLog.map Prod.fst, (alookup s.slots k).isSome = true)

/-- `t` extends `s` by appending completion-slot writes: no operation of
the client ever removes or overwrites the shared state of a promise. -/
def slotsExt (s t : ImplState) : Prop := ∃ u, t.slots = s.slots ++ u

/-- A connected impl state with one registered pending call (call id 1
bound to promise 0, unfulfilled). -/
def implExample : ImplState :=
  ⟨[(1, 0)], [], 1, [], ConnectionState.connected, false, []⟩

/-- A connected impl state with no registered call. -/
def implEmpty : ImplState :=
  ⟨[], [], 0, [], ConnectionState.connected, false, []⟩

/-- A running loop around `implExample`. -/
def loopExample : LoopState := ⟨implExample, true, []⟩

/-- A running loop around an empty table. -/
def loopEmpty : LoopState := ⟨implEmpty, true, []⟩

/-! ## Association-list lemmas -/

theorem alookup_append_some {α : Type} {l1 : List (Nat × α)} (l2 : List (Nat × α))
    {k : Nat} {v : α} (h : alookup l1 k = some v) :
    alookup (l1 ++ l2) k = some v := by
  induction l1 with
  | nil => simp [alookup] at h
  | cons p t ih =>
      rw [List.cons_append, alookup]
      rw [alookup] at h
      by_cases hp : p.1 = k
      · rwa [if_pos hp] at h ⊢
      · rw [if_neg hp] at h ⊢
        exact ih h

theorem alookup_append_none {α : Type} {l1 : List (Nat × α)} (l2 : List (Nat × α))
    {k : Nat} (h : alookup l1 k = none) :
    alookup (l1 ++ l2) k = alookup l2 k := by
  induction l1 with
  | nil => rfl
  | cons p t ih =>
      rw [List.cons_append, alookup]
      rw [alookup] at h
      by_cases hp : p.1 = k
      · rw [if_pos hp] at h; exact absurd h (by simp)
      · rw [if_neg hp] at h ⊢
        exact ih h

theorem alookup_isSome_append {α : Type} {l1 : List (Nat × α)} (l2 : List (Nat × α))
    {k : Nat} (h : (alookup l1 k).isSome = true) :
    (alookup (l1 ++ l2) k).isSome = true := by
  cases hx : alookup l1 k with
  | none => rw [hx] at h; simp at h
  | some v => rw [alookup_append_some l2 hx]; rfl

theorem alookup_aerase_self {α : Type} (l : List (Nat × α)) (k : Nat) :
    alookup (aerase l k) k = none := by
  induction l with
  | nil => rfl
  | cons p t ih =>
      rw [aerase]
      by_cases hp : p.1 = k
      · rwa [if_pos hp]
      · rw [if_neg hp, alookup, if_neg hp]
        exact ih

theorem alookup_aerase_ne {α : Type} (l : List (Nat × α)) {k k' : Nat}
    (h : k' ≠ k) : alookup (aerase l k) k' = alookup l k' := by
  induction l with
  | nil => rfl
  | cons p t ih =>
      rw [aerase, alookup]
      by_cases hp : p.1 = k
      · rw [if_pos hp, if_neg (by rw [hp]; exact Ne.symm h)]
        exact ih
      · rw [if_neg hp, alookup]
        by_cases hk : p.1 = k'
        · rw [if_pos hk, if_pos hk]
        · rw [if_neg hk, if_neg hk]
          exact ih

theorem mem_of_aerase_mem {α : Type} {l : List (Nat × α)} {k : Nat} {p : Nat × α}
    (h : p ∈ aerase l k) : p ∈ l := by
  induction l with
  | nil => exact absurd h (by simp [aerase])
  | cons q t ih =>
      rw [aerase] at h
      by_cases hq : q.1 = k
      · rw [if_pos hq] at h
        exact List.mem_cons_of_mem q (ih h)
      · rw [if_neg hq] at h
        rcases List.mem_cons.mp h with h | h
        · exact h ▸ List.mem_cons_self q t
        · exact List.mem_cons_of_mem q (ih h)

theorem alookup_of_forall_lt {α : Type} {l : List (Nat × α)} {n : Nat}
    (h : ∀ p ∈ l, p.1 < n) : alookup l n = none := by
  induction l with
  | nil => rfl
  | cons p t ih =>
      have hp : p.1 ≠ n := Nat.ne_of_lt (h p (List.mem_cons_self p t))
      rw [alookup, if_neg hp]
      exact ih fun q hq => h q (List.mem_cons_of_mem p hq)

theorem mem_of_alookup_some {α : Type} {l : List (Nat × α)} {k : Nat} {v : α}
    (h : alookup l k = some v) : (k, v) ∈ l := by
  induction l with
  | nil => simp [alookup] at h
  | cons p t ih =>
      rw [alookup] at h
      by_cases hp : p.1 = k
      · rw [if_pos hp] at h
        have : p = (k, v) := by
          cases p
          simp only [Option.some.injEq] at h
          simp_all
        exact this ▸ List.mem_cons_self p t
      · rw [if_neg hp] at h
        exact List.mem_cons_of_mem p (ih h)

/-! ## Invariants of reachable impl states -/

theorem WF_fulfill {s : ImplState} {pid : Nat} {o : Outcome}
    (hw : WF s) (hlt : pid < s.nextPromiseId)
    (hnone : alookup s.slots pid = none) : WF (fulfill s pid o) := by
  obtain ⟨h1, h2, h3, h4⟩ := hw
  have hnotin : pid ∉ s.writeLog.map Prod.fst := by
    intro hmem
    have := h4 pid hmem
    rw [hnone] at this
    simp at this
  refine ⟨fun p hp => h1 p hp, ?_, ?_, ?_⟩
  · intro p hp
    simp only [fulfill] at hp
    rcases List.mem_append.mp hp with h | h
    · exact h2 p h
    · have : p = (pid, o) := by simpa using h
      rw [this]
      exact hlt
  · simp only [fulfill, List.map_append, List.map_cons, List.map_nil]
    rw [List.nodup_append]
    refine ⟨h3, List.nodup_singleton pid, ?_⟩
    intro x hx hx1
    have : x = pid := by simpa using hx1
    exact hnotin (this ▸ hx)
  · intro k hk
    simp only [fulfill, List.map_append, List.map_cons, List.map_nil] at hk ⊢
    rcases List.mem_append.mp hk with h | h
    · exact alookup_isSome_append _ (h4 k h)
    · have hkp : k = pid := by simpa using h
      rw [hkp, alookup_append_none _ hnone]
      simp [alookup]

theorem WF_deliver {s : ImplState} {pid : Nat} {r : Response}
    (hw : WF s) (hlt : pid < s.nextPromiseId) : WF (deliver s pid r) := by
  rw [deliver]
  cases hx : alookup s.slots pid with
  | some v => exact hw
  | none => exact WF_fulfill hw hlt hx

theorem WF_eraseQueue_set {s : ImplState} (hw : WF s) (q : List Nat) :
    WF { s with eraseQueue := q } := hw

theorem WF_processResponse {s : ImplState} (r : Response)
    (hw : WF s) : WF (processResponse s r) := by
  rw [processResponse]
  cases hx : alookup s.ongoingCalls r.id with
  | some pid =>
      have hlt : pid < s.nextPromiseId := hw.1 _ (mem_of_alookup_some hx)
      exact WF_deliver hw hlt
  | none =>
      apply WF_deliver (s := { s with
        ongoingCalls := s.ongoingCalls ++ [(r.id, s.nextPromiseId)]
        nextPromiseId := s.nextPromiseId + 1
        eraseQueue := s.eraseQueue ++ [r.id] })
      · obtain ⟨h1, h2, h3, h4⟩ := hw
        refine ⟨?_, ?_, h3, h4⟩
        · intro p hp
          rcases List.mem_append.mp hp with h | h
          · exact Nat.lt_succ_of_lt (h1 p h)
          · have : p = (r.id, s.nextPromiseId) := by simpa using h
            rw [this]
            exact Nat.lt_succ_self _
        · intro p hp
          exact Nat.lt_succ_of_lt (h2 p hp)
      · exact Nat.lt_succ_self _

theorem WF_processBatch {s : ImplState} (rs : List Response)
    (hw : WF s) : WF (processBatch s rs) := by
  induction rs generalizing s with
  | nil => exact hw
  | cons r t ih =>
      rw [processBatch]
      by_cases hc : (processResponse s r).crashed = true
      · simpa [hc] using WF_processResponse r hw
      · simp only [hc, if_false]
        simp only [Bool.not_eq_true] at hc
        simp only [hc, Bool.false_eq_true, if_false]
        exact ih (WF_processResponse r hw)

theorem WF_runEraseTask {s : ImplState} (id : Nat)
    (hw : WF s) : WF (runEraseTask s id) := by
  cases hx : alookup s.ongoingCalls id with
  | none => simpa [runEraseTask, hx] using hw
  | some pid =>
      obtain ⟨h1, h2, h3, h4⟩ := hw
      have hlt : pid < s.nextPromiseId := h1 _ (mem_of_alookup_some hx)
      have hw1 : WF { s with ongoingCalls := aerase s.ongoingCalls id } :=
        ⟨fun p hp => h1 p (mem_of_aerase_mem hp), h2, h3, h4⟩
      cases hy : alookup s.slots pid with
      | some v =>
          have heq : runEraseTask s id =
              { s with ongoingCalls := aerase s.ongoingCalls id } := by
            simp [runEraseTask, hx, hy]
          rw [heq]
          exact hw1
      | none =>
          have heq : runEraseTask s id =
              fulfill { s with ongoingCalls := aerase s.ongoingCalls id }
                pid Outcome.broken := by
            simp [runEraseTask, hx, hy]
          rw [heq]
          exact WF_fulfill hw1 hlt hy

theorem WF_drainEraseQueue {s : ImplState} (hw : WF s) :
    WF (drainEraseQueue s) := by
  rw [drainEraseQueue]
  have hbase : WF { s with eraseQueue := ([] : List Nat) } := hw
  generalize ({ s with eraseQueue := ([] : List Nat) } : ImplState) = s0 at hbase
  generalize s.eraseQueue = q
  induction q generalizing s0 with
  | nil => exact hbase
  | cons i t ih =>
      rw [List.foldl_cons]
      exact ih _ (WF_runEraseTask i hbase)

theorem WF_readHandler {s : ImplState} (c : ReadResult)
    (hw : WF s) : WF (readHandler s c).state := by
  cases c with
  | ok frames => exact WF_processBatch frames hw
  | eof => exact hw
  | connectionReset => exact hw
  | otherError => exact hw

theorem WF_runPostAction {s : LoopState} (a : PostAction)
    (hw : WF s.impl) : WF (runPostAction s a).impl := by
  cases a with
  | writeBuf buf => exact hw
  | insertCall id =>
      obtain ⟨h1, h2, h3, h4⟩ := hw
      have hw1 : WF { s.impl with nextPromiseId := s.impl.nextPromiseId + 1 } :=
        ⟨fun p hp => Nat.lt_succ_of_lt (h1 p hp),
         fun p hp => Nat.lt_succ_of_lt (h2 p hp), h3, h4⟩
      cases hx : alookup s.impl.ongoingCalls id with
      | some pid =>
          cases hy : alookup s.impl.slots s.impl.nextPromiseId with
          | some v =>
              have heq : (runPostAction s (PostAction.insertCall id)).impl =
                  { s.impl with nextPromiseId := s.impl.nextPromiseId + 1 } := by
                simp [runPostAction, hx, hy]
              rw [heq]
              exact hw1
          | none =>
              have heq : (runPostAction s (PostAction.insertCall id)).impl =
                  fulfill { s.impl with nextPromiseId := s.impl.nextPromiseId + 1 }
                    s.impl.nextPromiseId Outcome.broken := by
                simp [runPostAction, hx, hy]
              rw [heq]
              exact WF_fulfill hw1 (Nat.lt_succ_self _) hy
      | none =>
          have heq : (runPostAction s (PostAction.insertCall id)).impl =
              { s.impl with
                  nextPromiseId := s.impl.nextPromiseId + 1
                  ongoingCalls := s.impl.ongoingCalls ++ [(id, s.impl.nextPromiseId)] } := by
            simp [runPostAction, hx]
          rw [heq]
          obtain ⟨g1, g2, g3, g4⟩ := hw1
          refine ⟨?_, g2, g3, g4⟩
          intro p hp
          simp only at hp
          rcases List.mem_append.mp hp with h | h
          · exact g1 p h
          · have hpe : p = (id, s.impl.nextPromiseId) := by simpa using h
            rw [hpe]
            exact Nat.lt_succ_self _

theorem WF_runPostCallTask {s : LoopState} (id buf : Nat)
    (hw : WF s.impl) : WF (runPostCallTask s id buf).impl := by
  rw [runPostCallTask, runPostActions, postTaskActions]
  simp only [List.foldl_cons, List.foldl_nil]
  exact WF_runPostAction _ (WF_runPostAction _ hw)

theorem WF_loopStep {s : LoopState} (e : LoopEvent)
    (hw : WF s.impl) : WF (loopStep s e).impl := by
  by_cases hg : (!s.running || s.impl.crashed) = true
  · simpa [loopStep, hg] using hw
  · cases e with
    | stop => simpa [loopStep, hg] using hw
    | read c =>
        by_cases hc : (readHandler s.impl c).state.crashed = true
        · simpa [loopStep, hg, hc] using WF_readHandler c hw
        · simpa [loopStep, hg, hc] using WF_drainEraseQueue (WF_readHandler c hw)
    | postCall id buf => simpa [loopStep, hg] using WF_runPostCallTask id buf hw
    | postNotify buf => simpa [loopStep, hg] using hw

theorem WF_runLoop {s : LoopState} (es : List LoopEvent)
    (hw : WF s.impl) : WF (runLoop s es).impl := by
  rw [runLoop]
  induction es generalizing s with
  | nil => exact hw
  | cons e t ih =>
      rw [List.foldl_cons]
      exact ih (WF_loopStep e hw)

/-! ## The completion-slot store is append-only -/

theorem slotsExt_refl (s : ImplState) : slotsExt s s := ⟨[], by simp⟩

theorem slotsExt_trans {s t u : ImplState} (h1 : slotsExt s t)
    (h2 : slotsExt t u) : slotsExt s u := by
  obtain ⟨a, ha⟩ := h1
  obtain ⟨b, hb⟩ := h2
  exact ⟨a ++ b, by rw [hb, ha, List.append_assoc]⟩

theorem slotsExt_fulfill (s : ImplState) (pid : Nat) (o : Outcome) :
    slotsExt s (fulfill s pid o) := ⟨[(pid, o)], rfl⟩

theorem slotsExt_deliver (s : ImplState) (pid : Nat) (r : Response) :
    slotsExt s (deliver s pid r) := by
  cases hx : alookup s.slots pid with
  | some v => exact ⟨[], by simp [deliver, hx]⟩
  | none =>
      refine ⟨[(pid, if r.err > 0 then Outcome.error r.err else Outcome.value r.result)], ?_⟩
      simp [deliver, hx, fulfill]

theorem slotsExt_processResponse (s : ImplState) (r : Response) :
    slotsExt s (processResponse s r) := by
  cases hx : alookup s.ongoingCalls r.id with
  | some pid =>
      have heq : processResponse s r =
          deliver { s with eraseQueue := s.eraseQueue ++ [r.id] } pid r := by
        simp [processResponse, hx]
      rw [heq]
      exact slotsExt_deliver _ pid r
  | none =>
      have heq : processResponse s r =
          deliver { s with
              ongoingCalls := s.ongoingCalls ++ [(r.id, s.nextPromiseId)]
              nextPromiseId := s.nextPromiseId + 1
              eraseQueue := s.eraseQueue ++ [r.id] } s.nextPromiseId r := by
        simp [processResponse, hx]
      rw [heq]
      exact slotsExt_deliver _ _ r

theorem slotsExt_processBatch (s : ImplState) (rs : List Response) :
    slotsExt s (processBatch s rs) := by
  induction rs generalizing s with
  | nil => exact slotsExt_refl s
  | cons r t ih =>
      rw [processBatch]
      by_cases hc : (processResponse s r).crashed = true
      · simpa [hc] using slotsExt_processResponse s r
      · simp only [hc, Bool.false_eq_true, if_false]
        exact slotsExt_trans (slotsExt_processResponse s r) (ih _)

theorem slotsExt_runEraseTask (s : ImplState) (id : Nat) :
    slotsExt s (runEraseTask s id) := by
  cases hx : alookup s.ongoingCalls id with
  | none => exact ⟨[], by simp [runEraseTask, hx]⟩
  | some pid =>
      cases hy : alookup s.slots pid with
      | some v => exact ⟨[], by simp [runEraseTask, hx, hy]⟩
      | none =>
          exact ⟨[(pid, Outcome.broken)], by simp [runEraseTask, hx, hy, fulfill]⟩

theorem slotsExt_foldl_erase (q : List Nat) (s : ImplState) :
    slotsExt s (q.foldl runEraseTask s) := by
  induction q generalizing s with
  | nil => exact slotsExt_refl s
  | cons i t ih =>
      rw [List.foldl_cons]
      exact slotsExt_trans (slotsExt_runEraseTask s i) (ih _)

theorem slotsExt_drainEraseQueue (s : ImplState) :
    slotsExt s (drainEraseQueue s) := by
  rw [drainEraseQueue]
  have h := slotsExt_foldl_erase s.eraseQueue { s with eraseQueue := ([] : List Nat) }
  obtain ⟨u, hu⟩ := h
  exact ⟨u, hu⟩

theorem slotsExt_readHandler (s : ImplState) (c : ReadResult) :
    slotsExt s (readHandler s c).state := by
  cases c with
  | ok frames => exact slotsExt_processBatch s frames
  | eof => exact ⟨[], by simp [readHandler]⟩
  | connectionReset => exact ⟨[], by simp [readHandler]⟩
  | otherError => exact slotsExt_refl s

theorem slotsExt_runPostAction (s : LoopState) (a : PostAction) :
    slotsExt s.impl (runPostAction s a).impl := by
  cases a with
  | writeBuf buf => exact slotsExt_refl _
  | insertCall id =>
      cases hx : alookup s.impl.ongoingCalls id with
      | some pid =>
          cases hy : alookup s.impl.slots s.impl.nextPromiseId with
          | some v => exact ⟨[], by simp [runPostAction, hx, hy]⟩
          | none =>
              exact ⟨[(s.impl.nextPromiseId, Outcome.broken)],
                by simp [runPostAction, hx, hy, fulfill]⟩
      | none => exact ⟨[], by simp [runPostAction, hx]⟩

theorem slotsExt_loopStep (s : LoopState) (e : LoopEvent) :
    slotsExt s.impl (loopStep s e).impl := by
  by_cases hg : (!s.running || s.impl.crashed) = true
  · have heq : loopStep s e = s := by simp [loopStep, hg]
    rw [heq]
    exact slotsExt_refl _
  · cases e with
    | stop =>
        have heq : loopStep s LoopEvent.stop = { s with running := false } := by
          simp [loopStep, hg]
        rw [heq]
        exact slotsExt_refl _
    | read c =>
        by_cases hc : (readHandler s.impl c).state.crashed = true
        · have heq : loopStep s (LoopEvent.read c) =
              { s with impl := (readHandler s.impl c).state } := by
            simp [loopStep, hg, hc]
          rw [heq]
          exact slotsExt_readHandler s.impl c
        · have heq : loopStep s (LoopEvent.read c) =
              { s with impl := drainEraseQueue (readHandler s.impl c).state } := by
            simp [loopStep, hg, hc]
          rw [heq]
          exact slotsExt_trans (slotsExt_readHandler s.impl c)
            (slotsExt_drainEraseQueue _)
    | postCall id buf =>
        have heq : loopStep s (LoopEvent.postCall id buf) = runPostCallTask s id buf := by
          simp [loopStep, hg]
        rw [heq, runPostCallTask, runPostActions, postTaskActions]
        simp only [List.foldl_cons, List.foldl_nil]
        exact slotsExt_trans (slotsExt_runPostAction s _)
          (slotsExt_runPostAction _ _)
    | postNotify buf =>
        have heq : loopStep s (LoopEvent.postNotify buf) =
            { s with writes := s.writes ++ [buf] } := by
          simp [loopStep, hg]
        rw [heq]
        exact slotsExt_refl _

theorem slotsExt_runLoop (s : LoopState) (es : List LoopEvent) :
    slotsExt s.impl (runLoop s es).impl := by
  rw [runLoop]
  induction es generalizing s with
  | nil => exact slotsExt_refl _
  | cons e t ih =>
      rw [List.foldl_cons]
      exact slotsExt_trans (slotsExt_loopStep s e) (ih _)

theorem alookup_of_slotsExt {s t : ImplState} {pid : Nat} {v : Outcome}
    (hext : slotsExt s t) (h : alookup s.slots pid = some v) :
    alookup t.slots pid = some v := by
  obtain ⟨u, hu⟩ := hext
  rw [hu]
  exact alookup_append_some u h

/-! ## The connection state is only touched by the error branches -/

theorem connState_fulfill (s : ImplState) (pid : Nat) (o : Outcome) :
    (fulfill s pid o).connState = s.connState := rfl

theorem connState_deliver (s : ImplState) (pid : Nat) (r : Response) :
    (deliver s pid r).connState = s.connState := by
  cases hx : alookup s.slots pid with
  | some v => simp [deliver, hx]
  | none => simp [deliver, hx, fulfill]

theorem connState_processResponse (s : ImplState) (r : Response) :
    (processResponse s r).connState = s.connState := by
  cases hx : alookup s.ongoingCalls r.id with
  | some pid => simp [processResponse, hx, connState_deliver]
  | none => simp [processResponse, hx, connState_deliver]

theorem connState_processBatch (s : ImplState) (rs : List Response) :
    (processBatch s rs).connState = s.connState := by
  induction rs generalizing s with
  | nil => rfl
  | cons r t ih =>
      rw [processBatch]
      by_cases hc : (processResponse s r).crashed = true
      · simp [hc, connState_processResponse]
      · simp [hc, ih, connState_processResponse]

theorem connState_runEraseTask (s : ImplState) (id : Nat) :
    (runEraseTask s id).connState = s.connState := by
  cases hx : alookup s.ongoingCalls id with
  | none => simp [runEraseTask, hx]
  | some pid =>
      cases hy : alookup s.slots pid with
      | some v => simp [runEraseTask, hx, hy]
      | none => simp [runEraseTask, hx, hy, fulfill]

theorem connState_drainEraseQueue (s : ImplState) :
    (drainEraseQueue s).connState = s.connState := by
  rw [drainEraseQueue]
  have hgen : ∀ (q : List Nat) (t : ImplState),
      (q.foldl runEraseTask t).connState = t.connState := by
    intro q
    induction q with
    | nil => intro t; rfl
    | cons i u ih =>
        intro t
        rw [List.foldl_cons, ih, connState_runEraseTask]
  exact hgen s.eraseQueue _

/-! ## Small helper lemmas about fulfill -/

theorem alookup_append_single_ne {α : Type} (l : List (Nat × α)) {k j : Nat}
    (v : α) (h : j ≠ k) : alookup (l ++ [(k, v)]) j = alookup l j := by
  cases hx : alookup l j with
  | some w => exact alookup_append_some _ hx
  | none =>
      rw [alookup_append_none _ hx, alookup, if_neg (Ne.symm h)]
      rfl

theorem alookup_fulfill_self {s : ImplState} {pid : Nat} (o : Outcome)
    (h : alookup s.slots pid = none) :
    alookup (fulfill s pid o).slots pid = some o := by
  show alookup (s.slots ++ [(pid, o)]) pid = some o
  rw [alookup_append_none _ h, alookup, if_pos rfl]

theorem alookup_fulfill_other {s : ImplState} {pid : Nat} (o : Outcome)
    {q : Nat} (h : q ≠ pid) :
    alookup (fulfill s pid o).slots q = alookup s.slots q := by
  show alookup (s.slots ++ [(pid, o)]) q = alookup s.slots q
  exact alookup_append_single_ne _ o h

/-! ## Claim theorems -/

/-- C2 (refutation): `get_next_call_idx` increments `call_idx_` and then
returns the value of a separate atomic load, so two concurrent invocations
need not return distinct values.  In the legal interleaving where both
increments execute before either load (thread 0 increments, thread 1
increments, thread 0 loads, thread 1 loads), starting from the
constructor value 0, both invocations return 2 — the call ids are not
unique, contradicting the claim and spec Scenario E. -/
theorem call_idx_race_duplicate_ids :
    isInterleavingOfCalls raceSchedule [0, 1] = true ∧
    (runIdxSchedule ⟨initialCallIdx, []⟩ raceSchedule).returned = [(0, 2), (1, 2)] := by
  decide

/-- C4: the task body posted by `client::post` performs the registration
insert and then the write, in that order, inside a single serialized task:
the execution factors through an intermediate state — the state in which
the buffer is handed to the async writer — whose correlation table already
binds the call id, and the write step changes no impl state. -/
theorem post_registers_before_write (s : LoopState) (id buf : Nat)
    (h : alookup s.impl.ongoingCalls id = none) :
    ∃ mid : LoopState,
      runPostCallTask s id buf = runPostAction mid (PostAction.writeBuf buf) ∧
      alookup mid.impl.ongoingCalls id = some s.impl.nextPromiseId ∧
      (runPostCallTask s id buf).impl = mid.impl := by
  refine ⟨runPostAction s (PostAction.insertCall id), rfl, ?_, rfl⟩
  have heq : (runPostAction s (PostAction.insertCall id)).impl =
      { s.impl with
          nextPromiseId := s.impl.nextPromiseId + 1
          ongoingCalls := s.impl.ongoingCalls ++ [(id, s.impl.nextPromiseId)] } := by
    simp [runPostAction, h]
  rw [heq]
  show alookup (s.impl.ongoingCalls ++ [(id, s.impl.nextPromiseId)]) id = _
  rw [alookup_append_none _ h, alookup, if_pos rfl]

/-- C4 witness: a concrete post task on an empty table. -/
theorem post_registers_before_write_witness :
    ∃ mid : LoopState,
      runPostCallTask loopEmpty 5 9 = runPostAction mid (PostAction.writeBuf 9) ∧
      alookup mid.impl.ongoingCalls 5 = some loopEmpty.impl.nextPromiseId ∧
      (runPostCallTask loopEmpty 5 9).impl = mid.impl :=
  post_registers_before_write loopEmpty 5 9 (by decide)

/-- C5: while the connection is connected, a read failing with eof moves
`state_` to disconnected, a read failing with connection reset moves it to
reset, any other transport error leaves it connected, and a successful
read (which only runs the frame loop) changes no connection state. -/
theorem read_failure_state_transitions (s : ImplState)
    (h : s.connState = ConnectionState.connected) :
    (readHandler s ReadResult.eof).state.connState = ConnectionState.disconnected ∧
    (readHandler s ReadResult.connectionReset).state.connState = ConnectionState.reset ∧
    (readHandler s ReadResult.otherError).state.connState = ConnectionState.connected ∧
    ∀ frames, (readHandler s (ReadResult.ok frames)).state.connState =
      ConnectionState.connected := by
  refine ⟨rfl, rfl, h, ?_⟩
  intro frames
  show (processBatch s frames).connState = ConnectionState.connected
  rw [connState_processBatch, h]

/-- C5 witness: the transitions on a concrete connected state. -/
theorem read_failure_state_transitions_witness :
    (readHandler implExample ReadResult.eof).state.connState =
        ConnectionState.disconnected ∧
    (readHandler implExample ReadResult.connectionReset).state.connState =
        ConnectionState.reset ∧
    (readHandler implExample ReadResult.otherError).state.connState =
        ConnectionState.connected ∧
    ∀ frames, (readHandler implExample (ReadResult.ok frames)).state.connState =
        ConnectionState.connected :=
  read_failure_state_transitions implExample rfl

/-- C7: a frame matched to a registered, not yet fulfilled pending call
fulfills exactly that call: with a failed outcome carrying the
server-supplied error payload when the frame flags an error, and with the
decoded result value otherwise; no other completion slot changes, and the
handler does not crash doing so. -/
theorem matched_response_fulfillment (s : ImplState) (r : Response) (pid : Nat)
    (hm : alookup s.ongoingCalls r.id = some pid)
    (hs : alookup s.slots pid = none) :
    alookup (processResponse s r).slots pid =
      some (if r.err > 0 then Outcome.error r.err else Outcome.value r.result) ∧
    (∀ q, q ≠ pid → alookup (processResponse s r).slots q = alookup s.slots q) ∧
    (processResponse s r).crashed = s.crashed := by
  have heq : processResponse s r =
      fulfill { s with eraseQueue := s.eraseQueue ++ [r.id] } pid
        (if r.err > 0 then Outcome.error r.err else Outcome.value r.result) := by
    simp [processResponse, hm, deliver, hs]
  rw [heq]
  refine ⟨alookup_fulfill_self _ hs, ?_, rfl⟩
  intro q hq
  exact alookup_fulfill_other _ hq

/-- C7 witness: the registered call 1 of `implExample` receives the
decoded result of a success frame for id 1. -/
theorem matched_response_fulfillment_witness :
    alookup (processResponse implExample ⟨1, 0, 42⟩).slots 0 =
      some (if (⟨1, 0, 42⟩ : Response).err > 0
            then Outcome.error (⟨1, 0, 42⟩ : Response).err
            else Outcome.value (⟨1, 0, 42⟩ : Response).result) ∧
    (∀ q, q ≠ 0 → alookup (processResponse implExample ⟨1, 0, 42⟩).slots q =
      alookup implExample.slots q) ∧
    (processResponse implExample ⟨1, 0, 42⟩).crashed = implExample.crashed :=
  matched_response_fulfillment implExample ⟨1, 0, 42⟩ 0 (by decide) (by decide)

/-- C9: the read handler re-arms the read only from the success branch:
if another `do_read()` was issued, the completed read was a success; and
every error completion leaves the correlation table, the completion slots,
the posted-task queue and the write log untouched and does not re-arm. -/
theorem read_error_never_rearms (s : ImplState) (c : ReadResult) :
    ((readHandler s c).rearm = true → ∃ frames, c = ReadResult.ok frames) ∧
    (c = ReadResult.eof ∨ c = ReadResult.connectionReset ∨ c = ReadResult.otherError →
      (readHandler s c).rearm = false ∧
      (readHandler s c).state.ongoingCalls = s.ongoingCalls ∧
      (readHandler s c).state.slots = s.slots ∧
      (readHandler s c).state.eraseQueue = s.eraseQueue ∧
      (readHandler s c).state.writeLog = s.writeLog) := by
  cases c with
  | ok frames =>
      refine ⟨fun _ => ⟨frames, rfl⟩, ?_⟩
      intro h
      rcases h with h | h | h <;> exact absurd h (by simp)
  | eof => exact ⟨fun h => absurd h (by simp [readHandler]), fun _ => ⟨rfl, rfl, rfl, rfl, rfl⟩⟩
  | connectionReset =>
      exact ⟨fun h => absurd h (by simp [readHandler]), fun _ => ⟨rfl, rfl, rfl, rfl, rfl⟩⟩
  | otherError =>
      exact ⟨fun h => absurd h (by simp [readHandler]), fun _ => ⟨rfl, rfl, rfl, rfl, rfl⟩⟩

/-- C9 witness: instantiated at an eof completion of the concrete state. -/
theorem read_error_never_rearms_witness :
    (readHandler implExample ReadResult.eof).rearm = false ∧
    (readHandler implExample ReadResult.eof).state.ongoingCalls =
        implExample.ongoingCalls ∧
    (readHandler implExample ReadResult.eof).state.slots = implExample.slots ∧
    (readHandler implExample ReadResult.eof).state.eraseQueue =
        implExample.eraseQueue ∧
    (readHandler implExample ReadResult.eof).state.writeLog =
        implExample.writeLog :=
  (read_error_never_rearms implExample ReadResult.eof).2 (Or.inl rfl)

/-- C10: `call_idx_` starts at 0 in the impl member list, and a sequential
run of `get_next_call_idx` invocations returns 1, 2, 3, ...: the first
invocation returns 1 and each invocation returns the previous returned
value plus one. -/
theorem call_idx_sequential_from_zero (n : Nat) :
    initialCallIdx = 0 ∧
    seqCallIdxs n initialCallIdx =
      (List.range n).map (fun (i : Nat) => (i : Int) + 1) := by
  refine ⟨rfl, ?_⟩
  have hgen : ∀ (m : Nat) (c : Int),
      seqCallIdxs m c = (List.range m).map (fun (i : Nat) => c + (i : Int) + 1) := by
    intro m
    induction m with
    | zero => intro c; rfl
    | succ k ih =>
        intro c
        rw [List.range_succ_eq_map, seqCallIdxs]
        simp only [List.map_cons, List.map_map, Nat.cast_zero, get_next_call_idx]
        refine List.cons_eq_cons.mpr ⟨by ring, ?_⟩
        rw [ih]
        apply List.map_congr_left
        intro i hi
        simp only [Function.comp_apply, Nat.cast_succ]
        ring
  rw [show initialCallIdx = (0 : Int) from rfl, hgen n 0]
  apply List.map_congr_left
  intro i hi
  ring

/-- C10 witness: the first five sequential invocations return 1 to 5. -/
theorem call_idx_sequential_from_zero_witness :
    initialCallIdx = 0 ∧
    seqCallIdxs 5 initialCallIdx =
      (List.range 5).map (fun (i : Nat) => (i : Int) + 1) :=
  call_idx_sequential_from_zero 5

/-- C3: a decoded frame whose id has no pending call in the correlation
table is dropped without observable effect: `ongoing_calls_[id]`
transiently default-constructs an entry for the unknown id, the outcome is
written into that fresh promise which nobody holds, and the posted erase
removes it again — so after the handler and its posted erase task, every
other table entry is unchanged, the unknown id is absent again, no
completion slot other than the transient fresh one is touched, and the
event loop does not crash.  The hypotheses say the frame id is unknown, no
earlier erase task is pending, the fresh promise id is unused, and the
loop is alive — all true of a reachable state at the start of a read
handler. -/
theorem unmatched_response_silently_dropped (s : ImplState) (r : Response)
    (hid : alookup s.ongoingCalls r.id = none)
    (hq : s.eraseQueue = [])
    (hfresh : alookup s.slots s.nextPromiseId = none)
    (hcr : s.crashed = false) :
    (∀ j, j ≠ r.id →
      alookup (drainEraseQueue (processResponse s r)).ongoingCalls j =
        alookup s.ongoingCalls j) ∧
    alookup (drainEraseQueue (processResponse s r)).ongoingCalls r.id = none ∧
    (∀ q, q ≠ s.nextPromiseId →
      alookup (drainEraseQueue (processResponse s r)).slots q = alookup s.slots q) ∧
    (drainEraseQueue (processResponse s r)).crashed = false := by
  set o : Outcome :=
    if r.err > 0 then Outcome.error r.err else Outcome.value r.result with ho
  have hpr_table : (processResponse s r).ongoingCalls =
      s.ongoingCalls ++ [(r.id, s.nextPromiseId)] := by
    simp [processResponse, hid, deliver, hfresh, fulfill]
  have hpr_slots : (processResponse s r).slots =
      s.slots ++ [(s.nextPromiseId, o)] := by
    simp [processResponse, hid, deliver, hfresh, fulfill, ho]
  have hpr_queue : (processResponse s r).eraseQueue = [r.id] := by
    simp [processResponse, hid, deliver, hfresh, fulfill, hq]
  have hpr_crash : (processResponse s r).crashed = false := by
    simp [processResponse, hid, deliver, hfresh, fulfill, hcr]
  have h2 : drainEraseQueue (processResponse s r) =
      runEraseTask { processResponse s r with eraseQueue := [] } r.id := by
    rw [drainEraseQueue, hpr_queue]
    rfl
  have hlook : alookup ({ processResponse s r with
      eraseQueue := ([] : List Nat) }).ongoingCalls r.id = some s.nextPromiseId := by
    show alookup (processResponse s r).ongoingCalls r.id = _
    rw [hpr_table, alookup_append_none _ hid, alookup, if_pos rfl]
  have hslot : alookup ({ processResponse s r with
      eraseQueue := ([] : List Nat) }).slots s.nextPromiseId = some o := by
    show alookup (processResponse s r).slots s.nextPromiseId = _
    rw [hpr_slots, alookup_append_none _ hfresh, alookup, if_pos rfl]
  have h3 : runEraseTask { processResponse s r with eraseQueue := ([] : List Nat) } r.id =
      { processResponse s r with
          eraseQueue := ([] : List Nat)
          ongoingCalls := aerase (processResponse s r).ongoingCalls r.id } := by
    simp [runEraseTask, hlook, hslot]
  rw [h2, h3]
  refine ⟨?_, ?_, ?_, ?_⟩
  · intro j hj
    show alookup (aerase (processResponse s r).ongoingCalls r.id) j = _
    rw [alookup_aerase_ne _ hj, hpr_table, alookup_append_single_ne _ _ hj]
  · exact alookup_aerase_self _ _
  · intro q hqne
    show alookup (processResponse s r).slots q = _
    rw [hpr_slots, alookup_append_single_ne _ _ hqne]
  · exact hpr_crash

/-- C3 witness: a frame for the unknown id 7 processed in `implExample`,
which has only call id 1 registered. -/
theorem unmatched_response_silently_dropped_witness :
    (∀ j, j ≠ (⟨7, 0, 42⟩ : Response).id →
      alookup (drainEraseQueue (processResponse implExample ⟨7, 0, 42⟩)).ongoingCalls j =
        alookup implExample.ongoingCalls j) ∧
    alookup (drainEraseQueue
        (processResponse implExample ⟨7, 0, 42⟩)).ongoingCalls (⟨7, 0, 42⟩ : Response).id =
      none ∧
    (∀ q, q ≠ implExample.nextPromiseId →
      alookup (drainEraseQueue (processResponse implExample ⟨7, 0, 42⟩)).slots q =
        alookup implExample.slots q) ∧
    (drainEraseQueue (processResponse implExample ⟨7, 0, 42⟩)).crashed = false :=
  unmatched_response_silently_dropped implExample ⟨7, 0, 42⟩
    (by decide) (by decide) (by decide) (by decide)

/-- C8: `client::~client` calls `io_.stop()` and joins the io thread.
Processing the stop event moves the loop to not-running, and from then on
the loop is a fixed point: no queued read completion or posted task has
any effect, so a pending call whose completion slot is still unwritten
when shutdown begins is never fulfilled by any later event sequence — its
waiting caller is never woken by the loop with a result or an error. -/
theorem no_outcome_delivered_after_shutdown (s : LoopState) (es : List LoopEvent)
    (pid : Nat) (hrun : s.running = true) (hcr : s.impl.crashed = false)
    (hp : alookup s.impl.slots pid = none) :
    (loopStep s LoopEvent.stop).running = false ∧
    runLoop (loopStep s LoopEvent.stop) es = loopStep s LoopEvent.stop ∧
    alookup (runLoop (loopStep s LoopEvent.stop) es).impl.slots pid = none := by
  have hstop : loopStep s LoopEvent.stop = { s with running := false } := by
    simp [loopStep, hrun, hcr]
  have hfix : runLoop { s with running := false } es = { s with running := false } := by
    induction es with
    | nil => rfl
    | cons e t ih =>
        show List.foldl loopStep _ (e :: t) = _
        rw [List.foldl_cons]
        have : loopStep { s with running := false } e = { s with running := false } := by
          simp [loopStep]
        rw [this]
        exact ih
  refine ⟨by rw [hstop], by rw [hstop]; exact hfix, ?_⟩
  rw [hstop, hfix]
  exact hp

/-- C8 witness: after shutdown of the running `loopExample`, a later read
completion and a later post task change nothing, and the registered but
unfulfilled call 1 (promise 0) never resolves. -/
theorem no_outcome_delivered_after_shutdown_witness :
    (loopStep loopExample LoopEvent.stop).running = false ∧
    runLoop (loopStep loopExample LoopEvent.stop)
        [LoopEvent.read (ReadResult.ok [⟨1, 0, 5⟩]), LoopEvent.postCall 2 3] =
      loopStep loopExample LoopEvent.stop ∧
    alookup (runLoop (loopStep loopExample LoopEvent.stop)
        [LoopEvent.read (ReadResult.ok [⟨1, 0, 5⟩]), LoopEvent.postCall 2 3]).impl.slots 0 =
      none :=
  no_outcome_delivered_after_shutdown loopExample
    [LoopEvent.read (ReadResult.ok [⟨1, 0, 5⟩]), LoopEvent.postCall 2 3] 0
    rfl rfl (by decide)

/-- C1: across any run of the io thread from a well-formed state, every
completion slot is written at most once: the ghost log of slot writes
never logs the same promise id twice, even when read batches carry
duplicate frames for the same call id (the second duplicate finds the
promise already satisfied and the handler dies without writing), and a
slot once fulfilled holds its outcome forever — in particular it is never
written again after its table entry has been erased. -/
theorem completion_slot_written_at_most_once (s : LoopState) (es : List LoopEvent)
    (hw : WF s.impl) :
    ((runLoop s es).impl.writeLog.map Prod.fst).Nodup ∧
    WF (runLoop s es).impl ∧
    ∀ pid v, alookup s.impl.slots pid = some v →
      alookup (runLoop s es).impl.slots pid = some v := by
  have hwf := WF_runLoop es hw
  refine ⟨hwf.2.2.1, hwf, ?_⟩
  intro pid v hv
  exact alookup_of_slotsExt (slotsExt_runLoop s es) hv

/-- C1 witness: a read batch with two frames for the same call id 1,
processed in `loopExample`; the slot of promise 0 is written once. -/
theorem completion_slot_written_at_most_once_witness :
    ((runLoop loopExample
        [LoopEvent.read (ReadResult.ok [⟨1, 0, 5⟩, ⟨1, 0, 6⟩])]).impl.writeLog.map
          Prod.fst).Nodup ∧
    WF (runLoop loopExample
        [LoopEvent.read (ReadResult.ok [⟨1, 0, 5⟩, ⟨1, 0, 6⟩])]).impl ∧
    ∀ pid v, alookup loopExample.impl.slots pid = some v →
      alookup (runLoop loopExample
          [LoopEvent.read (ReadResult.ok [⟨1, 0, 5⟩, ⟨1, 0, 6⟩])]).impl.slots pid =
        some v :=
  completion_slot_written_at_most_once loopExample
    [LoopEvent.read (ReadResult.ok [⟨1, 0, 5⟩, ⟨1, 0, 6⟩])] (by decide)

end Callme
